import Mathlib

set_option linter.unusedVariables false

namespace Containmint

/-!
Shallow embedding of `src/containmint.py` (ansible/containmint).

External effects are made explicit:
* the filesystem is a predicate on paths,
* the environment is a partial map from variable names to values,
* every container-engine invocation is recorded in a trace of argument
  lists, and an oracle decides, from the trace so far, whether the
  invocation succeeds (a failing invocation models `SubprocessError`),
* Python exceptions become `Option` or `Except` results.
-/

/-- One container-engine invocation, as its argument list. -/
abbrev Cmd := List String

instance {ε α : Type} [DecidableEq ε] [DecidableEq α] :
    DecidableEq (Except ε α) := fun a b =>
  match a, b with
  | Except.error e, Except.error f =>
    if h : e = f then isTrue (by rw [h])
    else isFalse (fun hc => h (Except.error.inj hc))
  | Except.error e, Except.ok y => isFalse (fun hc => Except.noConfusion hc)
  | Except.ok x, Except.error f => isFalse (fun hc => Except.noConfusion hc)
  | Except.ok x, Except.ok y =>
    if h : x = y then isTrue (by rw [h])
    else isFalse (fun hc => h (Except.ok.inj hc))

/-- The module constant CONTAINER_FILES. -/
def CONTAINER_FILES : List String := ["Containerfile", "Dockerfile"]

/-- The module constant TAG_FORMAT (the braces are written as escapes). -/
def TAG_FORMAT : String := "\x7bserver\x7d/\x7brepo\x7d:\x7btag\x7d"

/-- The ANSI reset sequence Display.CLEAR. -/
def CLEAR : String := "\x1b[0m"

/-- Python string comparison, lexicographic by code point, on the
underlying character lists.  Used to model `sorted()` on strings. -/
def lexLe : List Char → List Char → Bool
  | [], _ => true
  | _ :: _, [] => false
  | a :: as, b :: bs => if a < b then true else if b < a then false else lexLe as bs

/-- Python `a <= b` on strings, as a proposition. -/
def strLe (a b : String) : Prop := lexLe a.data b.data = true

instance : DecidableRel strLe := fun a b => by unfold strLe; infer_instance

instance : IsTotal String strLe := by
  constructor
  intro a b
  unfold strLe
  generalize a.data = x
  generalize b.data = y
  induction x generalizing y with
  | nil => left; rfl
  | cons c cs ih =>
    cases y with
    | nil => right; rfl
    | cons d ds =>
      rcases lt_trichotomy c d with h | h | h
      · left; simp [lexLe, h]
      · subst h
        rcases ih ds with h2 | h2
        · left; simp [lexLe, lt_irrefl, h2]
        · right; simp [lexLe, lt_irrefl, h2]
      · right; simp [lexLe, h, not_lt_of_gt h]

instance : IsTrans String strLe := by
  constructor
  intro a b c
  unfold strLe
  generalize a.data = x
  generalize b.data = y
  generalize c.data = z
  induction x generalizing y z with
  | nil => intro _ _; rfl
  | cons p ps ih =>
    intro h1 h2
    cases y with
    | nil => simp [lexLe] at h1
    | cons q qs =>
      cases z with
      | nil => simp [lexLe] at h2
      | cons r rs =>
        simp only [lexLe] at h1 h2 ⊢
        rcases lt_trichotomy p q with hpq | hpq | hpq
        · rcases lt_trichotomy q r with hqr | hqr | hqr
          · simp [lt_trans hpq hqr]
          · subst hqr; simp [hpq]
          · simp [hqr, not_lt_of_gt hqr] at h2
        · subst hpq
          rcases lt_trichotomy p r with hqr | hqr | hqr
          · simp [hqr]
          · subst hqr
            simp only [lt_irrefl, if_false] at h1 h2 ⊢
            exact ih _ _ h1 h2
          · rw [if_neg (not_lt_of_gt hqr), if_pos hqr] at h2
            exact absurd h2 Bool.false_ne_true
        · rw [if_neg (not_lt_of_gt hpq), if_pos hpq] at h1
          exact absurd h1 Bool.false_ne_true

/-- Python `value.split(sep, 1)` followed by unpacking into two names:
`some (before, after)` splits at the first occurrence of `sep`; `none`
models the `ValueError` raised when `sep` does not occur. -/
def splitOnce (sep : Char) : List Char → Option (List Char × List Char)
  | [] => none
  | c :: cs =>
    if c = sep then some ([], cs)
    else (splitOnce sep cs).map (fun p => (c :: p.1, p.2))

/-- The dataclass ImageReference. -/
structure ImageReference where
  server : String
  repo : String
  tag : String
deriving DecidableEq, Repr

/-- ImageReference.full_repo: the repo name including the server component. -/
def ImageReference.full_repo (r : ImageReference) : String :=
  r.server ++ "/" ++ r.repo

/-- ImageReference.parse: `value.split('/', 1)` then `name.split(':', 1)`.
`none` models the ValueError raised by a failed unpacking. -/
def ImageReference.parse (value : String) : Option ImageReference :=
  match splitOnce '/' value.data with
  | none => none
  | some sn =>
    match splitOnce ':' sn.2 with
    | none => none
    | some rt => some ⟨String.mk sn.1, String.mk rt.1, String.mk rt.2⟩

/-- Parse a list of references left to right; the first failure aborts,
modelling an exception escaping a Python generator expression. -/
def parseAll : List String → Option (List ImageReference)
  | [] => some []
  | t :: ts =>
    match ImageReference.parse t with
    | none => none
    | some r => (parseAll ts).map (fun rs => r :: rs)

/-- The classified application failures (plus the internal signals
Merge.ManifestPushError, IndexError and ValueError) that the embedded
operations can produce. -/
inductive AppError where
  | subprocess (cmd : Cmd)
  | manifestPush
  | multipleServers (servers : List String)
  | missingEnvVar (name : String)
  | indexError
  | parseFailure
deriving DecidableEq, Repr

/-- The dataclass RegistryCredentials. -/
structure RegistryCredentials where
  username : String
  password : String
deriving DecidableEq, Repr

/-- RegistryCredentials.create: reads CONTAINMINT_USERNAME first, then
CONTAINMINT_PASSWORD; a KeyError becomes MissingEnvVarError naming the
missing key. -/
def RegistryCredentials.create (env : String → Option String) :
    Except AppError RegistryCredentials :=
  match env "CONTAINMINT_USERNAME" with
  | none => Except.error (AppError.missingEnvVar "CONTAINMINT_USERNAME")
  | some username =>
    match env "CONTAINMINT_PASSWORD" with
    | none => Except.error (AppError.missingEnvVar "CONTAINMINT_PASSWORD")
    | some password => Except.ok ⟨username, password⟩

/-- get_server: the sorted tuple of distinct servers of the parsed tags;
exactly one server is returned, any other count raises
MultipleServersError carrying the tuple.  `none` models a parse failure
escaping the generator. -/
def get_server (tags : List String) : Option (Except (List String) String) :=
  (parseAll tags).map fun refs =>
    match List.insertionSort strLe ((refs.map ImageReference.server).dedup) with
    | [s] => Except.ok s
    | l => Except.error l

/-- The dataclass Execute (context, tag, push, login inherited from
BuildCommand, plus username and password). -/
structure ExecuteCfg where
  context : String
  tag : String
  push : Bool
  login : Bool
  username : String
  password : String
deriving DecidableEq, Repr

/-- Construction of an Execute instance including `__post_init__`:
when username and password are not both non-empty (Python truthiness)
and login is set, credentials are loaded from the environment. -/
def mkExecute (context tag : String) (push login : Bool)
    (username password : String) (env : String → Option String) :
    Except AppError ExecuteCfg :=
  if username ≠ "" ∧ password ≠ "" then
    Except.ok ⟨context, tag, push, login, username, password⟩
  else if login = false then
    Except.ok ⟨context, tag, push, login, username, password⟩
  else
    match RegistryCredentials.create env with
    | Except.error e => Except.error e
    | Except.ok c => Except.ok ⟨context, tag, push, login, c.username, c.password⟩

/-- The JSON content written by Execute.serialize: one key per field. -/
structure ConfigFile where
  context : String
  tag : String
  push : Bool
  login : Bool
  username : String
  password : String
deriving DecidableEq, Repr

/-- Execute.serialize: json.dump of `self.__dict__`. -/
def ExecuteCfg.serialize (e : ExecuteCfg) : ConfigFile :=
  ⟨e.context, e.tag, e.push, e.login, e.username, e.password⟩

/-- Execute.deserialize: `cls(**config)`, which re-runs `__post_init__`. -/
def deserialize (cfg : ConfigFile) (env : String → Option String) :
    Except AppError ExecuteCfg :=
  mkExecute cfg.context cfg.tag cfg.push cfg.login cfg.username cfg.password env

/-- The candidate container-definition paths of a context directory
(`os.path.join(context, name) for name in CONTAINER_FILES`). -/
def containerFilePaths (context : String) : List String :=
  CONTAINER_FILES.map (fun name => context ++ "/" ++ name)

/-- context_ref: the argparse validator for `--context`. -/
def context_ref (value : String) (isdir isfile : String → Bool) :
    Except String String :=
  if isdir value = false then
    Except.error ("context must be a directory: " ++ value)
  else
    let paths := containerFilePaths value
    let found := paths.filter isfile
    if found.length = 0 then
      Except.error ("missing one of: " ++ String.intercalate " " paths)
    else if 1 < found.length then
      Except.error ("multiple matches: " ++ String.intercalate " " found)
    else
      Except.ok value

/-- image_ref: the argparse validator for `--tag` and sources. -/
def image_ref (value : String) : Except String String :=
  match ImageReference.parse value with
  | none => Except.error ("required format is: " ++ TAG_FORMAT)
  | some _ => Except.ok value

/-- Run one engine command: append it to the trace, and ask the oracle
(a deterministic model of the outside world) whether it succeeded. -/
def engineRun (ok : List Cmd → Bool) (tr : List Cmd) (c : Cmd) :
    List Cmd × Bool :=
  (tr ++ [c], ok (tr ++ [c]))

/-- Execute.run: select the container file (`[paths if isfile][0]`,
IndexError when empty), open the registry session when login is set,
build with `--no-cache` (plus `--format docker` under podman), and
push when requested.  Returns the engine trace and the outcome. -/
def ExecuteCfg.run (e : ExecuteCfg) (isfile : String → Bool)
    (ok : List Cmd → Bool) (isPodman : Bool) :
    List Cmd × Except AppError Unit :=
  match ImageReference.parse e.tag with
  | none => ([], Except.error AppError.parseFailure)
  | some image =>
    match (containerFilePaths e.context).filter isfile |>.head? with
    | none => ([], Except.error AppError.indexError)
    | some mtch =>
      let creds : Option RegistryCredentials :=
        if e.login then some ⟨e.username, e.password⟩ else none
      let opts : List String := if isPodman then ["--format", "docker"] else []
      let buildCmd : Cmd :=
        ["build", "--tag", e.tag, "--file", mtch, e.context, "--no-cache"] ++ opts
      match creds with
      | none =>
        let rb := engineRun ok [] buildCmd
        if rb.2 = false then (rb.1, Except.error (AppError.subprocess buildCmd))
        else if e.push then
          let rp := engineRun ok rb.1 ["push", e.tag]
          if rp.2 = false then (rp.1, Except.error (AppError.subprocess ["push", e.tag]))
          else (rp.1, Except.ok ())
        else (rb.1, Except.ok ())
      | some c =>
        let loginCmd : Cmd :=
          ["login", "--username", c.username, "--password-stdin", image.server]
        let rl := engineRun ok [] loginCmd
        if rl.2 = false then (rl.1, Except.error (AppError.subprocess loginCmd))
        else
          let body : List Cmd × Except AppError Unit :=
            let rb := engineRun ok rl.1 buildCmd
            if rb.2 = false then (rb.1, Except.error (AppError.subprocess buildCmd))
            else if e.push then
              let rp := engineRun ok rb.1 ["push", e.tag]
              if rp.2 = false then (rp.1, Except.error (AppError.subprocess ["push", e.tag]))
              else (rp.1, Except.ok ())
            else (rb.1, Except.ok ())
          let ro := engineRun ok body.1 ["logout", image.server]
          if ro.2 = false then (ro.1, Except.error (AppError.subprocess ["logout", image.server]))
          else (ro.1, body.2)

/-- The dataclass Merge. -/
structure MergeCmd where
  tags : List String
  sources : List String
  push : Bool
  login : Bool
deriving DecidableEq, Repr

/-- Merge.should_enable_workaround:
`self.push and len(set(full_repo for tag in tags + sources)) > 1`.
Python `and` short-circuits, so nothing is parsed when push is false;
`none` models a parse failure escaping the generator. -/
def MergeCmd.should_enable_workaround (m : MergeCmd) : Option Bool :=
  if m.push then
    (parseAll (m.tags ++ m.sources)).map fun refs =>
      decide (1 < ((refs.map ImageReference.full_repo).dedup).length)
  else some false

/-- Merge.merge: for each tag, best-effort `manifest rm` (outcome
ignored), `manifest create` from all sources (failure is fatal), and,
when push is set, `manifest push` (failure becomes the internal
ManifestPushError signal; podman uses a `docker://` destination). -/
def mergeOnce (ok : List Cmd → Bool) (isPodman : Bool) (pushFlag : Bool)
    (sources : List String) (tr : List Cmd) :
    List String → List Cmd × Except AppError Unit
  | [] => (tr, Except.ok ())
  | tag :: rest =>
    let r1 := engineRun ok tr ["manifest", "rm", tag]
    let createCmd : Cmd := ["manifest", "create", tag] ++ sources
    let r2 := engineRun ok r1.1 createCmd
    if r2.2 = false then (r2.1, Except.error (AppError.subprocess createCmd))
    else if pushFlag then
      let opts : List String := if isPodman then ["docker://" ++ tag] else []
      let pushCmd : Cmd := ["manifest", "push", tag] ++ opts
      let r3 := engineRun ok r2.1 pushCmd
      if r3.2 = false then (r3.1, Except.error AppError.manifestPush)
      else mergeOnce ok isPodman pushFlag sources r3.1 rest
    else mergeOnce ok isPodman pushFlag sources r2.1 rest

/-- Merge.apply_work_around: pull then push every source, in list order. -/
def applyWorkAround (ok : List Cmd → Bool) (tr : List Cmd) :
    List String → List Cmd × Except AppError Unit
  | [] => (tr, Except.ok ())
  | src :: rest =>
    let r1 := engineRun ok tr ["pull", src]
    if r1.2 = false then (r1.1, Except.error (AppError.subprocess ["pull", src]))
    else
      let r2 := engineRun ok r1.1 ["push", src]
      if r2.2 = false then (r2.1, Except.error (AppError.subprocess ["push", src]))
      else applyWorkAround ok r2.1 rest

/-- The body of Merge.run inside the registry session: a first merge
attempt, whose ManifestPushError is suppressed exactly when the
workaround was pre-selected, then the workaround and a retry. -/
def mergeBody (m : MergeCmd) (ok : List Cmd → Bool) (isPodman : Bool)
    (workaround : Bool) (tr : List Cmd) : List Cmd × Except AppError Unit :=
  let first := mergeOnce ok isPodman m.push m.sources tr m.tags
  match first.2 with
  | Except.ok _ => first
  | Except.error e =>
    if e = AppError.manifestPush ∧ workaround then
      let w := applyWorkAround ok first.1 m.sources
      match w.2 with
      | Except.error e2 => (w.1, Except.error e2)
      | Except.ok _ => mergeOnce ok isPodman m.push m.sources w.1 m.tags
    else (first.1, Except.error e)

/-- Merge.run: get_server, credentials when login is set, the suppress
tuple from should_enable_workaround, then the registry session (login,
body, unconditional logout) around the merge body. -/
def mergeRun (m : MergeCmd) (env : String → Option String)
    (ok : List Cmd → Bool) (isPodman : Bool) :
    List Cmd × Except AppError Unit :=
  match get_server (m.tags ++ m.sources) with
  | none => ([], Except.error AppError.parseFailure)
  | some (Except.error servers) => ([], Except.error (AppError.multipleServers servers))
  | some (Except.ok server) =>
    match (if m.login then (RegistryCredentials.create env).map some
           else Except.ok none : Except AppError (Option RegistryCredentials)) with
    | Except.error e => ([], Except.error e)
    | Except.ok creds =>
      match m.should_enable_workaround with
      | none => ([], Except.error AppError.parseFailure)
      | some workaround =>
        match creds with
        | none => mergeBody m ok isPodman workaround []
        | some c =>
          let loginCmd : Cmd :=
            ["login", "--username", c.username, "--password-stdin", server]
          let rl := engineRun ok [] loginCmd
          if rl.2 = false then (rl.1, Except.error (AppError.subprocess loginCmd))
          else
            let body := mergeBody m ok isPodman workaround rl.1
            let ro := engineRun ok body.1 ["logout", server]
            if ro.2 = false then (ro.1, Except.error (AppError.subprocess ["logout", server]))
            else (ro.1, body.2)

/-- Python `message.replace(item, '*' * len(item))`: greedy left-to-right
replacement of non-overlapping occurrences by asterisks of equal length
(with an empty pattern the replacement is also empty, leaving the string
unchanged, as in Python). -/
def maskL (p : List Char) : List Char → List Char
  | [] => []
  | c :: cs =>
    if h : p ≠ [] ∧ List.IsPrefix p (c :: cs) then
      List.replicate p.length '*' ++ maskL p (List.drop p.length (c :: cs))
    else
      c :: maskL p cs
termination_by s => s.length
decreasing_by
  · simp only [List.length_drop, List.length_cons]
    have hp : 0 < p.length := List.length_pos.mpr h.1
    omega
  · simp

/-- The replacement of one sensitive item on strings. -/
def pyReplaceStars (item msg : String) : String :=
  String.mk (maskL item.data msg.data)

/-- Display.show: every sensitive item is replaced by asterisks of its
length, then the message is printed wrapped in `color or CLEAR` and
CLEAR.  The returned string is the printed line. -/
def Display.show_line (sensitive : List String) (message : String)
    (color : Option String) : String :=
  (color.getD CLEAR) ++
    (sensitive.foldl (fun msg item => pyReplaceStars item msg) message) ++ CLEAR

/-- Written from the spec words of claim C5, for comparison with the
code: a reference of the form `server/repo:tag` where exactly one `/`
splits server from repo+tag and exactly one `:` splits repo from tag. -/
def SpecFormRef (v : String) : Prop :=
  ∃ server repo tag : String,
    v = server ++ "/" ++ repo ++ ":" ++ tag ∧
    v.data.count '/' = 1 ∧
    (repo ++ ":" ++ tag).data.count ':' = 1

/-! Helper lemmas. -/

theorem splitOnce_eq_none {sep : Char} {l : List Char} :
    splitOnce sep l = none ↔ sep ∉ l := by
  induction l with
  | nil => simp [splitOnce]
  | cons c cs ih =>
    by_cases h : c = sep
    · subst h; simp [splitOnce]
    · cases hs : splitOnce sep cs with
      | none =>
        have hnm : sep ∉ cs := ih.mp hs
        simp [splitOnce, h, hs, Ne.symm h, hnm]
      | some p =>
        have hmem : sep ∈ cs := by
          by_contra hnot
          rw [ih.mpr hnot] at hs
          exact Option.noConfusion hs
        simp [splitOnce, h, hs, hmem]

theorem splitOnce_of_not_mem {sep : Char} {a : List Char} (b : List Char)
    (ha : sep ∉ a) : splitOnce sep (a ++ sep :: b) = some (a, b) := by
  induction a with
  | nil => simp [splitOnce]
  | cons c cs ih =>
    have hc : ¬ c = sep := by
      intro h; exact ha (by simp [h])
    have hcs : sep ∉ cs := fun h => ha (List.mem_cons_of_mem _ h)
    simp [splitOnce, hc, ih hcs]

theorem splitOnce_some_eq {sep : Char} {l a b : List Char}
    (h : splitOnce sep l = some (a, b)) : l = a ++ sep :: b ∧ sep ∉ a := by
  induction l generalizing a b with
  | nil => exact Option.noConfusion h
  | cons c cs ih =>
    by_cases hc : c = sep
    · subst hc
      simp only [splitOnce, if_pos rfl] at h
      have h' : (([], cs) : List Char × List Char) = (a, b) := Option.some.inj h
      have ha : a = [] := (congrArg Prod.fst h').symm
      have hb : b = cs := (congrArg Prod.snd h').symm
      subst ha; subst hb
      simp
    · simp only [splitOnce, if_neg hc] at h
      cases hs : splitOnce sep cs with
      | none => rw [hs] at h; exact Option.noConfusion h
      | some p =>
        rw [hs] at h
        simp only [Option.map_some'] at h
        have h' : ((c :: p.1, p.2) : List Char × List Char) = (a, b) :=
          Option.some.inj h
        have ha : a = c :: p.1 := (congrArg Prod.fst h').symm
        have hb : b = p.2 := (congrArg Prod.snd h').symm
        subst ha; subst hb
        obtain ⟨ih1, ih2⟩ := ih hs
        refine ⟨by simp [ih1], ?_⟩
        intro hmem
        rcases List.mem_cons.mp hmem with h3 | h3
        · exact hc h3.symm
        · exact ih2 h3

theorem parseAll_ne_nil {tags : List String} {refs : List ImageReference}
    (hp : parseAll tags = some refs) (hne : tags ≠ []) : refs ≠ [] := by
  cases tags with
  | nil => exact absurd rfl hne
  | cons t ts =>
    simp only [parseAll] at hp
    cases hparse : ImageReference.parse t with
    | none => rw [hparse] at hp; simp at hp
    | some r =>
      rw [hparse] at hp
      cases hrest : parseAll ts with
      | none => rw [hrest] at hp; simp at hp
      | some rs =>
        rw [hrest] at hp
        simp only [Option.map_some', Option.some.injEq] at hp
        rw [← hp]
        simp

theorem dedup_of_all_eq {l : List String} {s : String} (hne : l ≠ [])
    (h : ∀ x ∈ l, x = s) : l.dedup = [s] := by
  induction l with
  | nil => exact absurd rfl hne
  | cons x xs ih =>
    have hx : x = s := h x (List.mem_cons_self x xs)
    subst hx
    cases xs with
    | nil => simp
    | cons y ys =>
      have hy : y = x := h y (by simp)
      have hmem : x ∈ y :: ys := by rw [hy]; simp
      rw [List.dedup_cons_of_mem hmem]
      exact ih (by simp) (fun z hz => h z (List.mem_cons_of_mem _ hz))

/-! Claim theorems. -/

/-- C4: for every well-formed `server/repo:tag` — no `/` in the server
part, exactly one `:` after the first `/` — ImageReference.parse
recovers the three fields exactly, and full_repo is `server/repo`. -/
theorem parse_wellformed_roundtrip (server repo tag : String)
    (hs : '/' ∉ server.data) (hr : ':' ∉ repo.data) (ht : ':' ∉ tag.data) :
    ImageReference.parse (server ++ "/" ++ repo ++ ":" ++ tag) =
      some ⟨server, repo, tag⟩ ∧
    (ImageReference.mk server repo tag).full_repo = server ++ "/" ++ repo := by
  constructor
  · have hdata : (server ++ "/" ++ repo ++ ":" ++ tag).data =
        server.data ++ '/' :: (repo.data ++ ':' :: tag.data) := by
      simp [String.data_append]
    unfold ImageReference.parse
    rw [hdata]
    simp only [splitOnce_of_not_mem _ hs, splitOnce_of_not_mem _ hr]
  · rfl

/-- C4 witness at a concrete well-formed reference. -/
theorem parse_wellformed_roundtrip_witness :
    ImageReference.parse "quay.io/ansible:latest" =
      some ⟨"quay.io", "ansible", "latest"⟩ ∧
    (ImageReference.mk "quay.io" "ansible" "latest").full_repo = "quay.io/ansible" := by
  have heq : "quay.io" ++ "/" ++ "ansible" ++ ":" ++ "latest" = "quay.io/ansible:latest" := by
    decide
  have h := parse_wellformed_roundtrip "quay.io" "ansible" "latest"
    (by decide) (by decide) (by decide)
  rw [heq] at h
  exact h

/-- C5 counterexample: `a/b/c:d` is not of the claimed form (it contains
two slashes), yet ImageReference.parse accepts it, with the extra
segment folded into the repo field. -/
theorem parse_malformed_accepted_cex :
    ¬ SpecFormRef "a/b/c:d" ∧
    ImageReference.parse "a/b/c:d" = some ⟨"a", "b/c", "d"⟩ := by
  constructor
  · rintro ⟨s, r, t, hv, hcount, hcolon⟩
    exact absurd hcount (by decide)
  · decide

/-- C5 amended: parse rejects exactly the inputs with no `/`, or with no
`:` after the first `/`; extra `/` or `:` characters are accepted and
end up inside the repo or tag fields (they are not rejected). -/
theorem parse_accepts_iff (v : String) :
    (ImageReference.parse v).isSome = true ↔
      ∃ a b : List Char, splitOnce '/' v.data = some (a, b) ∧ ':' ∈ b := by
  constructor
  · intro h
    unfold ImageReference.parse at h
    cases hs : splitOnce '/' v.data with
    | none => rw [hs] at h; simp at h
    | some sn =>
      rw [hs] at h
      cases h2 : splitOnce ':' sn.2 with
      | none => simp [h2] at h
      | some rt =>
        obtain ⟨heq, -⟩ := splitOnce_some_eq h2
        refine ⟨sn.1, sn.2, by simp [hs], ?_⟩
        rw [heq]
        simp
  · rintro ⟨a, b, hab, hmem⟩
    unfold ImageReference.parse
    rw [hab]
    cases h2 : splitOnce ':' b with
    | none => exact absurd hmem (splitOnce_eq_none.mp h2)
    | some rt => simp [h2]

/-- C10: on the empty list get_server finds zero distinct servers, which
is not exactly one, so it raises MultipleServersError carrying the empty
tuple. -/
theorem get_server_empty : get_server [] = some (Except.error []) := rfl

/-- C7: for a non-empty list of parseable references, get_server returns
the unique shared server; when two distinct servers occur, it raises
MultipleServersError carrying exactly the distinct servers in sorted
order. -/
theorem get_server_unique_or_error (tags : List String)
    (refs : List ImageReference) (hp : parseAll tags = some refs)
    (hne : tags ≠ []) :
    (∀ s : String, (∀ r ∈ refs, r.server = s) →
      get_server tags = some (Except.ok s)) ∧
    (∀ s₁ s₂ : String, s₁ ∈ refs.map ImageReference.server →
      s₂ ∈ refs.map ImageReference.server → s₁ ≠ s₂ →
      ∃ l : List String, get_server tags = some (Except.error l) ∧
        List.Sorted strLe l ∧ l.Nodup ∧
        (∀ x : String, x ∈ l ↔ x ∈ refs.map ImageReference.server)) := by
  constructor
  · intro s hall
    have hrne : refs ≠ [] := parseAll_ne_nil hp hne
    have hmne : refs.map ImageReference.server ≠ [] := by
      cases refs with
      | nil => exact absurd rfl hrne
      | cons a as => simp
    have hmall : ∀ x ∈ refs.map ImageReference.server, x = s := by
      intro x hx
      obtain ⟨r, hr, hrx⟩ := List.mem_map.mp hx
      rw [← hrx]
      exact hall r hr
    have hd : (refs.map ImageReference.server).dedup = [s] :=
      dedup_of_all_eq hmne hmall
    unfold get_server
    rw [hp]
    simp only [Option.map_some']
    rw [hd]
    rfl
  · intro s₁ s₂ h₁ h₂ hne12
    have hperm : List.Perm
        (List.insertionSort strLe ((refs.map ImageReference.server).dedup))
        ((refs.map ImageReference.server).dedup) :=
      List.perm_insertionSort strLe _
    have hmem : ∀ x : String,
        x ∈ List.insertionSort strLe ((refs.map ImageReference.server).dedup) ↔
        x ∈ refs.map ImageReference.server := by
      intro x
      rw [hperm.mem_iff, List.mem_dedup]
    have hnodup : (List.insertionSort strLe
        ((refs.map ImageReference.server).dedup)).Nodup :=
      hperm.symm.nodup (List.nodup_dedup _)
    have hsort : List.Sorted strLe
        (List.insertionSort strLe ((refs.map ImageReference.server).dedup)) :=
      List.sorted_insertionSort strLe _
    refine ⟨List.insertionSort strLe ((refs.map ImageReference.server).dedup),
      ?_, hsort, hnodup, hmem⟩
    unfold get_server
    rw [hp]
    simp only [Option.map_some']
    cases hS : List.insertionSort strLe ((refs.map ImageReference.server).dedup) with
    | nil =>
      exact absurd ((hmem s₁).mpr h₁) (by rw [hS]; simp)
    | cons u us =>
      cases us with
      | nil =>
        exfalso
        have e₁ : s₁ = u := by
          have := (hmem s₁).mpr h₁
          rw [hS] at this
          simpa using this
        have e₂ : s₂ = u := by
          have := (hmem s₂).mpr h₂
          rw [hS] at this
          simpa using this
        exact hne12 (e₁.trans e₂.symm)
      | cons v vs =>
        rfl

/-- C7 witness: two distinct servers produce the sorted error tuple. -/
theorem get_server_unique_or_error_witness :
    ∃ l : List String,
      get_server ["b.com/r:t", "a.com/r:t"] = some (Except.error l) ∧
      List.Sorted strLe l ∧ l.Nodup ∧
      (∀ x : String, x ∈ l ↔
        x ∈ ([⟨"b.com", "r", "t"⟩, ⟨"a.com", "r", "t"⟩] :
          List ImageReference).map ImageReference.server) := by
  have h := get_server_unique_or_error ["b.com/r:t", "a.com/r:t"]
    [⟨"b.com", "r", "t"⟩, ⟨"a.com", "r", "t"⟩] (by decide) (by decide)
  exact h.2 "b.com" "a.com" (by decide) (by decide) (by decide)

/-- C6: a constructible Execute configuration serializes and then
deserializes, through the config file and under the same environment, to
an equal instance (re-running post_init is the identity on its output). -/
theorem execute_serialize_roundtrip (context tag : String) (push login : Bool)
    (username password : String) (env : String → Option String)
    (x : ExecuteCfg)
    (h : mkExecute context tag push login username password env = Except.ok x) :
    deserialize x.serialize env = Except.ok x := by
  unfold mkExecute at h
  by_cases h1 : username ≠ "" ∧ password ≠ ""
  · rw [if_pos h1] at h
    have hx : x = ⟨context, tag, push, login, username, password⟩ :=
      (Except.ok.inj h).symm
    subst hx
    unfold deserialize ExecuteCfg.serialize mkExecute
    rw [if_pos h1]
  · rw [if_neg h1] at h
    by_cases h2 : login = false
    · rw [if_pos h2] at h
      have hx : x = ⟨context, tag, push, login, username, password⟩ :=
        (Except.ok.inj h).symm
      subst hx
      unfold deserialize ExecuteCfg.serialize mkExecute
      rw [if_neg h1, if_pos h2]
    · rw [if_neg h2] at h
      cases hc : RegistryCredentials.create env with
      | error e => rw [hc] at h; exact Except.noConfusion h
      | ok c =>
        rw [hc] at h
        have hx : x = ⟨context, tag, push, login, c.username, c.password⟩ :=
          (Except.ok.inj h).symm
        subst hx
        unfold deserialize ExecuteCfg.serialize mkExecute
        by_cases h3 : c.username ≠ "" ∧ c.password ≠ ""
        · rw [if_pos h3]
        · rw [if_neg h3, if_neg h2, hc]

/-- C6 witness at a concrete configuration. -/
theorem execute_serialize_roundtrip_witness :
    deserialize
      (ExecuteCfg.serialize ⟨"ctx", "q.io/r:t", false, false, "", ""⟩)
      (fun _ => none) =
      Except.ok ⟨"ctx", "q.io/r:t", false, false, "", ""⟩ :=
  execute_serialize_roundtrip "ctx" "q.io/r:t" false false "" ""
    (fun _ => none) ⟨"ctx", "q.io/r:t", false, false, "", ""⟩ (by decide)

/-- C8: with login requested and a loadable server, a missing
CONTAINMINT_USERNAME (checked first) or CONTAINMINT_PASSWORD produces
MissingEnvVarError naming the first missing key, and Merge.run performs
no container-engine invocation (its engine trace is empty). -/
theorem missing_env_credentials (env : String → Option String) (u : String)
    (m : MergeCmd) (ok : List Cmd → Bool) (isPodman : Bool)
    (hlogin : m.login = true) (s : String)
    (hserver : get_server (m.tags ++ m.sources) = some (Except.ok s)) :
    (env "CONTAINMINT_USERNAME" = none →
      RegistryCredentials.create env =
        Except.error (AppError.missingEnvVar "CONTAINMINT_USERNAME") ∧
      mergeRun m env ok isPodman =
        ([], Except.error (AppError.missingEnvVar "CONTAINMINT_USERNAME"))) ∧
    (env "CONTAINMINT_USERNAME" = some u → env "CONTAINMINT_PASSWORD" = none →
      RegistryCredentials.create env =
        Except.error (AppError.missingEnvVar "CONTAINMINT_PASSWORD") ∧
      mergeRun m env ok isPodman =
        ([], Except.error (AppError.missingEnvVar "CONTAINMINT_PASSWORD"))) := by
  constructor
  · intro hU
    have hcreate : RegistryCredentials.create env =
        Except.error (AppError.missingEnvVar "CONTAINMINT_USERNAME") := by
      unfold RegistryCredentials.create
      rw [hU]
    refine ⟨hcreate, ?_⟩
    unfold mergeRun
    rw [hserver, hlogin]
    simp only [if_true, hcreate]
    rfl
  · intro hU hP
    have hcreate : RegistryCredentials.create env =
        Except.error (AppError.missingEnvVar "CONTAINMINT_PASSWORD") := by
      unfold RegistryCredentials.create
      rw [hU, hP]
    refine ⟨hcreate, ?_⟩
    unfold mergeRun
    rw [hserver, hlogin]
    simp only [if_true, hcreate]
    rfl

/-- C8 witness: empty environment with login requested. -/
theorem missing_env_credentials_witness :
    RegistryCredentials.create (fun _ => none) =
      Except.error (AppError.missingEnvVar "CONTAINMINT_USERNAME") ∧
    mergeRun ⟨["a.com/r:t"], [], true, true⟩ (fun _ => none)
        (fun _ => true) false =
      ([], Except.error (AppError.missingEnvVar "CONTAINMINT_USERNAME")) :=
  (missing_env_credentials (fun _ => none) "" ⟨["a.com/r:t"], [], true, true⟩
    (fun _ => true) false rfl "a.com" (by decide)).1 rfl

/-- C1: for parseable tags and sources, should_enable_workaround is true
exactly when push is set and more than one distinct full repository
occurs among tags and sources; it is false whenever all of them share
one repository, regardless of push. -/
theorem workaround_trigger_iff (m : MergeCmd) (refs : List ImageReference)
    (hp : parseAll (m.tags ++ m.sources) = some refs) :
    (m.should_enable_workaround = some true ↔
      (m.push = true ∧
        1 < (refs.map ImageReference.full_repo).toFinset.card)) ∧
    (∀ fr : String, (∀ r ∈ refs, r.full_repo = fr) →
      m.should_enable_workaround = some false) := by
  have hcard : (refs.map ImageReference.full_repo).toFinset.card =
      ((refs.map ImageReference.full_repo).dedup).length :=
    List.card_toFinset _
  constructor
  · unfold MergeCmd.should_enable_workaround
    cases hpush : m.push with
    | false =>
      constructor
      · intro hcontra
        exact absurd (Option.some.inj hcontra) (by simp)
      · rintro ⟨hcontra, -⟩
        exact Bool.noConfusion hcontra
    | true =>
      rw [if_pos rfl, hp]
      simp only [Option.map_some', Option.some.injEq, true_and, hcard]
      constructor
      · intro hd
        exact of_decide_eq_true hd
      · intro hd
        exact decide_eq_true hd
  · intro fr hall
    unfold MergeCmd.should_enable_workaround
    cases hpush : m.push with
    | false => rfl
    | true =>
      rw [if_pos rfl, hp]
      simp only [Option.map_some', Option.some.injEq]
      cases hrefs : refs with
      | nil => simp [hrefs]
      | cons r rs =>
        have hne : refs.map ImageReference.full_repo ≠ [] := by
          rw [hrefs]; simp
        have hd : (refs.map ImageReference.full_repo).dedup = [fr] := by
          refine dedup_of_all_eq hne ?_
          intro x hx
          obtain ⟨r', hr', hrx⟩ := List.mem_map.mp hx
          rw [← hrx]
          exact hall r' hr'
        rw [← hrefs, hd]
        simp

/-- C1 witness: two repositories with push trigger the workaround; a
shared repository with push does not. -/
theorem workaround_trigger_iff_witness :
    MergeCmd.should_enable_workaround ⟨["a.com/x:t"], ["a.com/y:t"], true, false⟩ =
      some true ∧
    MergeCmd.should_enable_workaround ⟨["a.com/x:t"], ["a.com/x:s"], true, false⟩ =
      some false := by
  constructor
  · exact ((workaround_trigger_iff ⟨["a.com/x:t"], ["a.com/y:t"], true, false⟩
      [⟨"a.com", "x", "t"⟩, ⟨"a.com", "y", "t"⟩] (by decide)).1).mpr
      ⟨rfl, by decide⟩
  · exact (workaround_trigger_iff ⟨["a.com/x:t"], ["a.com/x:s"], true, false⟩
      [⟨"a.com", "x", "t"⟩, ⟨"a.com", "x", "s"⟩] (by decide)).2
      "a.com/x" (by decide)

theorem applyWorkAround_ok_trace (ok : List Cmd → Bool) (sources : List String) :
    ∀ tr : List Cmd, (applyWorkAround ok tr sources).2 = Except.ok () →
      (applyWorkAround ok tr sources).1 =
        tr ++ sources.flatMap (fun src => [["pull", src], ["push", src]]) := by
  induction sources with
  | nil =>
    intro tr h
    simp [applyWorkAround]
  | cons src rest ih =>
    intro tr h
    simp only [applyWorkAround, engineRun] at h ⊢
    by_cases h1 : ok (tr ++ [["pull", src]]) = false
    · rw [if_pos h1] at h
      exact absurd h (by simp)
    · rw [if_neg h1] at h ⊢
      by_cases h2 : ok (tr ++ [["pull", src]] ++ [["push", src]]) = false
      · rw [if_pos h2] at h
        exact absurd h (by simp)
      · rw [if_neg h2] at h ⊢
        rw [ih _ h]
        simp

theorem mergeRun_no_login (m : MergeCmd) (env : String → Option String)
    (ok : List Cmd → Bool) (isPodman : Bool) (hlogin : m.login = false)
    (s : String) (hserver : get_server (m.tags ++ m.sources) = some (Except.ok s))
    (w : Bool) (hw : m.should_enable_workaround = some w) :
    mergeRun m env ok isPodman = mergeBody m ok isPodman w [] := by
  unfold mergeRun
  rw [hserver, hlogin, hw]
  rfl

theorem mergeRun_login (m : MergeCmd) (env : String → Option String)
    (ok : List Cmd → Bool) (isPodman : Bool) (hlogin : m.login = true)
    (s : String) (hserver : get_server (m.tags ++ m.sources) = some (Except.ok s))
    (c : RegistryCredentials)
    (hcred : RegistryCredentials.create env = Except.ok c)
    (w : Bool) (hw : m.should_enable_workaround = some w)
    (hok : ok [["login", "--username", c.username, "--password-stdin", s]] = true) :
    mergeRun m env ok isPodman =
      (let body := mergeBody m ok isPodman w
          [["login", "--username", c.username, "--password-stdin", s]]
       if ok (body.1 ++ [["logout", s]]) = false then
         (body.1 ++ [["logout", s]],
           Except.error (AppError.subprocess ["logout", s]))
       else (body.1 ++ [["logout", s]], body.2)) := by
  unfold mergeRun
  rw [hserver, hlogin, hcred, hw]
  simp only [Except.map, engineRun, List.nil_append, hok]
  simp
  intro hcontra
  rw [hok] at hcontra
  exact Bool.noConfusion hcontra

/-- C2 counterexample: with a duplicated source the recovery performs one
pull and one push per occurrence (two pulls for the single distinct
source), not one per distinct source image. -/
theorem merge_workaround_duplicate_sources_cex :
    (mergeRun ⟨["s.com/a:t"], ["s.com/b:t", "s.com/b:t"], true, false⟩
        (fun _ => none) (fun tr => decide (tr.length ≠ 3)) false).1 =
      [["manifest", "rm", "s.com/a:t"],
       ["manifest", "create", "s.com/a:t", "s.com/b:t", "s.com/b:t"],
       ["manifest", "push", "s.com/a:t"],
       ["pull", "s.com/b:t"], ["push", "s.com/b:t"],
       ["pull", "s.com/b:t"], ["push", "s.com/b:t"],
       ["manifest", "rm", "s.com/a:t"],
       ["manifest", "create", "s.com/a:t", "s.com/b:t", "s.com/b:t"],
       ["manifest", "push", "s.com/a:t"]] ∧
    (["s.com/b:t", "s.com/b:t"] : List String).dedup.length = 1 := by
  constructor
  · decide
  · decide

/-- C2 amended: with the workaround pre-selected and the first merge
attempt failing with the manifest-push signal, the recovery performs
exactly one pull followed by one push per entry of `sources` in order
(a duplicated source is processed once per occurrence), nothing else,
and merge is retried.  Without a login session Merge.run returns the
retried attempt's outcome unmodified; with a login session (credentials
loaded, login call succeeded) it returns that outcome unmodified exactly
when the closing logout succeeds — a failing logout replaces it, since
the logout runs on the way out of the registry session. -/
theorem merge_workaround_sequence (m : MergeCmd) (env : String → Option String)
    (ok : List Cmd → Bool) (isPodman : Bool) (s : String)
    (hserver : get_server (m.tags ++ m.sources) = some (Except.ok s))
    (hw : m.should_enable_workaround = some true) :
    (∀ tr0 : List Cmd,
      (applyWorkAround ok (mergeOnce ok isPodman m.push m.sources tr0 m.tags).1
          m.sources).2 = Except.ok () →
      (applyWorkAround ok (mergeOnce ok isPodman m.push m.sources tr0 m.tags).1
          m.sources).1 =
        (mergeOnce ok isPodman m.push m.sources tr0 m.tags).1 ++
          m.sources.flatMap (fun src => [["pull", src], ["push", src]])) ∧
    (m.login = false →
      (mergeOnce ok isPodman m.push m.sources [] m.tags).2 =
          Except.error AppError.manifestPush →
      (applyWorkAround ok (mergeOnce ok isPodman m.push m.sources [] m.tags).1
          m.sources).2 = Except.ok () →
      mergeRun m env ok isPodman =
        mergeOnce ok isPodman m.push m.sources
          ((mergeOnce ok isPodman m.push m.sources [] m.tags).1 ++
            m.sources.flatMap (fun src => [["pull", src], ["push", src]]))
          m.tags) ∧
    (m.login = true → ∀ c : RegistryCredentials,
      RegistryCredentials.create env = Except.ok c →
      ok [["login", "--username", c.username, "--password-stdin", s]] = true →
      (mergeOnce ok isPodman m.push m.sources
          [["login", "--username", c.username, "--password-stdin", s]]
          m.tags).2 = Except.error AppError.manifestPush →
      (applyWorkAround ok
          (mergeOnce ok isPodman m.push m.sources
            [["login", "--username", c.username, "--password-stdin", s]]
            m.tags).1 m.sources).2 = Except.ok () →
      mergeRun m env ok isPodman =
        (let second := mergeOnce ok isPodman m.push m.sources
            ((mergeOnce ok isPodman m.push m.sources
                [["login", "--username", c.username, "--password-stdin", s]]
                m.tags).1 ++
              m.sources.flatMap (fun src => [["pull", src], ["push", src]]))
            m.tags
         if ok (second.1 ++ [["logout", s]]) = false then
           (second.1 ++ [["logout", s]],
             Except.error (AppError.subprocess ["logout", s]))
         else (second.1 ++ [["logout", s]], second.2))) := by
  refine ⟨?_, ?_, ?_⟩
  · intro tr0 hwork
    exact applyWorkAround_ok_trace ok m.sources _ hwork
  · intro hlogin hfirst hwork
    have htr := applyWorkAround_ok_trace ok m.sources _ hwork
    rw [mergeRun_no_login m env ok isPodman hlogin s hserver true hw]
    simp only [mergeBody]
    simp only [hfirst, hwork, htr]
    simp
  · intro hlogin c hcred hok hfirst hwork
    have htr := applyWorkAround_ok_trace ok m.sources _ hwork
    rw [mergeRun_login m env ok isPodman hlogin s hserver c hcred true hw hok]
    have hbody : mergeBody m ok isPodman true
        [["login", "--username", c.username, "--password-stdin", s]] =
        mergeOnce ok isPodman m.push m.sources
          ((mergeOnce ok isPodman m.push m.sources
              [["login", "--username", c.username, "--password-stdin", s]]
              m.tags).1 ++
            m.sources.flatMap (fun src => [["pull", src], ["push", src]]))
          m.tags := by
      simp only [mergeBody]
      simp only [hfirst, hwork, htr]
      simp
    rw [hbody]

/-- C2 witness: the amended sequence at a concrete login-enabled merge
with a duplicated source, the oracle failing exactly the first manifest
push. -/
theorem merge_workaround_sequence_witness :
    mergeRun ⟨["s.com/a:t"], ["s.com/b:t", "s.com/b:t"], true, true⟩
        (fun _ => some "u") (fun tr => decide (tr.length ≠ 4)) false =
      (let second := mergeOnce (fun tr => decide (tr.length ≠ 4)) false true
          ["s.com/b:t", "s.com/b:t"]
          ((mergeOnce (fun tr => decide (tr.length ≠ 4)) false true
              ["s.com/b:t", "s.com/b:t"]
              [["login", "--username", "u", "--password-stdin", "s.com"]]
              ["s.com/a:t"]).1 ++
            (["s.com/b:t", "s.com/b:t"] : List String).flatMap
              (fun src => [["pull", src], ["push", src]]))
          ["s.com/a:t"]
       if (fun tr : List Cmd => decide (tr.length ≠ 4))
           (second.1 ++ [["logout", "s.com"]]) = false then
         (second.1 ++ [["logout", "s.com"]],
           Except.error (AppError.subprocess ["logout", "s.com"]))
       else (second.1 ++ [["logout", "s.com"]], second.2)) :=
  ((merge_workaround_sequence
      ⟨["s.com/a:t"], ["s.com/b:t", "s.com/b:t"], true, true⟩
      (fun _ => some "u") (fun tr => decide (tr.length ≠ 4)) false "s.com"
      (by decide) (by decide)).2.2) rfl ⟨"u", "u"⟩ (by decide) (by decide)
    (by decide) (by decide)

/-- C3 counterexample: a context containing both Containerfile and
Dockerfile does not surface a configuration error in Execute.run — the
engine build is invoked with the first match. -/
theorem execute_run_multiple_files_cex :
    ((containerFilePaths "ctx").filter
        (fun p => p == "ctx/Containerfile" || p == "ctx/Dockerfile")).length = 2 ∧
    ExecuteCfg.run ⟨"ctx", "q.io/r:t", false, false, "", ""⟩
        (fun p => p == "ctx/Containerfile" || p == "ctx/Dockerfile")
        (fun _ => true) false =
      ([["build", "--tag", "q.io/r:t", "--file", "ctx/Containerfile", "ctx",
         "--no-cache"]], Except.ok ()) := by
  constructor
  · decide
  · decide

/-- C3 amended: Execute.run fails (with the IndexError of `[...][0]`)
before any engine call exactly when no recognized container file exists.
With at least one — even with both — no error is raised and the file
given to the engine build is always the first existing file of
(Containerfile, Dockerfile): without login the build is the first engine
command; with login the login command comes first and, when it succeeds,
the build with that file immediately follows (a failed login aborts
before the build).  The exactly-one check lives in the CLI validator
context_ref, which accepts a context iff it is a directory with exactly
one recognized file. -/
theorem execute_container_file_selection (e : ExecuteCfg)
    (isfile isdir : String → Bool) (ok : List Cmd → Bool) (isPodman : Bool)
    (img : ImageReference) (himg : ImageReference.parse e.tag = some img) :
    ((containerFilePaths e.context).filter isfile = [] →
      ExecuteCfg.run e isfile ok isPodman =
        ([], Except.error AppError.indexError)) ∧
    (∀ f fs, (containerFilePaths e.context).filter isfile = f :: fs →
      (e.login = false →
        ∃ rest r, ExecuteCfg.run e isfile ok isPodman =
          ((["build", "--tag", e.tag, "--file", f, e.context, "--no-cache"] ++
            (if isPodman then ["--format", "docker"] else [])) :: rest, r)) ∧
      (e.login = true →
        (ok [["login", "--username", e.username, "--password-stdin",
            img.server]] = false →
          ExecuteCfg.run e isfile ok isPodman =
            ([["login", "--username", e.username, "--password-stdin",
                img.server]],
              Except.error (AppError.subprocess
                ["login", "--username", e.username, "--password-stdin",
                  img.server]))) ∧
        (ok [["login", "--username", e.username, "--password-stdin",
            img.server]] = true →
          ∃ rest r, ExecuteCfg.run e isfile ok isPodman =
            (["login", "--username", e.username, "--password-stdin",
                img.server] ::
              (["build", "--tag", e.tag, "--file", f, e.context,
                  "--no-cache"] ++
                (if isPodman then ["--format", "docker"] else [])) ::
              rest, r)))) ∧
    ((∃ v, context_ref e.context isdir isfile = Except.ok v) ↔
      (isdir e.context = true ∧
        ((containerFilePaths e.context).filter isfile).length = 1)) := by
  refine ⟨?_, ?_, ?_⟩
  · intro hfil
    unfold ExecuteCfg.run
    rw [himg, hfil]
    rfl
  · intro f fs hfil
    refine ⟨?_, ?_⟩
    · intro hlogin
      simp only [ExecuteCfg.run, engineRun, himg, hfil, hlogin,
        List.head?_cons, Bool.false_eq_true, if_false, List.nil_append]
      repeat' split
      all_goals exact ⟨_, _, rfl⟩
    · intro hlogin
      refine ⟨?_, ?_⟩
      · intro hok
        simp [ExecuteCfg.run, engineRun, himg, hfil, hlogin, hok]
      · intro hok
        simp only [ExecuteCfg.run, engineRun, himg, hfil, hlogin,
          List.head?_cons, List.nil_append, eq_self_iff_true, if_true, hok,
          Bool.true_eq_false, if_false]
        repeat' split
        all_goals exact ⟨_, _, rfl⟩
  · simp only [context_ref]
    by_cases hd : isdir e.context = false
    · rw [if_pos hd]
      constructor
      · rintro ⟨v, hv⟩
        exact Except.noConfusion hv
      · rintro ⟨hdt, -⟩
        rw [hdt] at hd
        exact Bool.noConfusion hd
    · have hdt : isdir e.context = true := by
        cases hval : isdir e.context
        · exact absurd hval hd
        · rfl
      rw [if_neg hd]
      by_cases h0 : ((containerFilePaths e.context).filter isfile).length = 0
      · rw [if_pos h0]
        constructor
        · rintro ⟨v, hv⟩
          exact Except.noConfusion hv
        · rintro ⟨-, h1⟩
          omega
      · rw [if_neg h0]
        by_cases hgt : 1 < ((containerFilePaths e.context).filter isfile).length
        · rw [if_pos hgt]
          constructor
          · rintro ⟨v, hv⟩
            exact Except.noConfusion hv
          · rintro ⟨-, h1⟩
            omega
        · rw [if_neg hgt]
          constructor
          · intro _
            exact ⟨hdt, by omega⟩
          · intro _
            exact ⟨e.context, rfl⟩

/-- C3 witness: an empty context directory makes Execute.run fail before
any engine invocation, and a login-enabled run with one Dockerfile
builds it right after the successful login. -/
theorem execute_container_file_selection_witness :
    ExecuteCfg.run ⟨"ctx", "q.io/r:t", false, false, "", ""⟩ (fun _ => false)
        (fun _ => true) false = ([], Except.error AppError.indexError) ∧
    (∃ rest r, ExecuteCfg.run ⟨"ctx", "q.io/r:t", false, true, "u", "pw"⟩
        (fun p => p == "ctx/Dockerfile") (fun _ => true) false =
      (["login", "--username", "u", "--password-stdin", "q.io"] ::
        ["build", "--tag", "q.io/r:t", "--file", "ctx/Dockerfile", "ctx",
          "--no-cache"] :: rest, r)) := by
  constructor
  · exact (execute_container_file_selection
      ⟨"ctx", "q.io/r:t", false, false, "", ""⟩ (fun _ => false)
      (fun _ => true) (fun _ => true) false ⟨"q.io", "r", "t"⟩ (by decide)).1
      (by decide)
  · exact (((execute_container_file_selection
      ⟨"ctx", "q.io/r:t", false, true, "u", "pw"⟩
      (fun p => p == "ctx/Dockerfile") (fun _ => true) (fun _ => true) false
      ⟨"q.io", "r", "t"⟩ (by decide)).2.1 "ctx/Dockerfile" [] (by decide)).2
      rfl).2 (by decide)

theorem isInfix_cons_split {α : Type} {p l : List α} {a : α}
    (h : List.IsInfix p (a :: l)) :
    List.IsPrefix p (a :: l) ∨ List.IsInfix p l := by
  obtain ⟨u, v, huv⟩ := h
  cases u with
  | nil =>
    left
    exact ⟨v, by simpa using huv⟩
  | cons x u2 =>
    right
    have h2 : x :: (u2 ++ p ++ v) = a :: l := by simpa using huv
    exact ⟨u2, v, (List.cons.inj h2).2⟩

theorem isPrefix_head_mem {α : Type} {p : List α} {a : α} {l : List α}
    (hne : p ≠ []) (h : List.IsPrefix p (a :: l)) : a ∈ p := by
  obtain ⟨t, ht⟩ := h
  cases p with
  | nil => exact absurd rfl hne
  | cons c cs =>
    have h2 : c :: (cs ++ t) = a :: l := by simpa using ht
    have hca : c = a := (List.cons.inj h2).1
    rw [← hca]
    exact List.mem_cons_self _ _

theorem isInfix_skip_left {α : Type} {p t : List α} (a : List α)
    (hne : p ≠ []) (ha : ∀ c ∈ a, c ∉ p) (h : List.IsInfix p (a ++ t)) :
    List.IsInfix p t := by
  induction a with
  | nil => simpa using h
  | cons x a2 ih =>
    rw [List.cons_append] at h
    rcases isInfix_cons_split h with hpre | hinf
    · exact absurd (isPrefix_head_mem hne hpre) (ha x (List.mem_cons_self _ _))
    · exact ih (fun c hc => ha c (List.mem_cons_of_mem _ hc)) hinf

theorem isInfix_reverse_of {α : Type} {p l : List α} (h : List.IsInfix p l) :
    List.IsInfix p.reverse l.reverse := by
  obtain ⟨u, v, huv⟩ := h
  refine ⟨v.reverse, u.reverse, ?_⟩
  rw [← huv]
  simp [List.reverse_append, List.append_assoc]

theorem isInfix_skip_right {α : Type} {p t : List α} (a : List α)
    (hne : p ≠ []) (ha : ∀ c ∈ a, c ∉ p) (h : List.IsInfix p (t ++ a)) :
    List.IsInfix p t := by
  have h1 : List.IsInfix p.reverse (a.reverse ++ t.reverse) := by
    have h0 := isInfix_reverse_of h
    rwa [List.reverse_append] at h0
  have hne2 : p.reverse ≠ [] := by
    intro hc
    exact hne (by simpa using congrArg List.reverse hc)
  have ha2 : ∀ c ∈ a.reverse, c ∉ p.reverse := by
    intro c hc hcp
    exact ha c (List.mem_reverse.mp hc) (List.mem_reverse.mp hcp)
  have h2 := isInfix_skip_left a.reverse hne2 ha2 h1
  have h3 := isInfix_reverse_of h2
  simpa using h3

theorem isInfix_skip_stars {p t : List Char} {n : Nat} (hne : p ≠ [])
    (hstar : ∀ c ∈ p, c ≠ '*')
    (h : List.IsInfix p (List.replicate n '*' ++ t)) : List.IsInfix p t :=
  isInfix_skip_left (List.replicate n '*') hne
    (fun c hc hcp => hstar c hcp (List.eq_of_mem_replicate hc)) h

theorem maskL_isPrefix_preserve (p : List Char) :
    ∀ (q s : List Char), q ≠ [] → (∀ c ∈ q, c ≠ '*') →
      List.IsPrefix q (maskL p s) → List.IsPrefix q s := by
  have main : ∀ n : Nat, ∀ (q s : List Char), q ≠ [] → (∀ c ∈ q, c ≠ '*') →
      s.length ≤ n → List.IsPrefix q (maskL p s) → List.IsPrefix q s := by
    intro n
    induction n with
    | zero =>
      intro q s hq hqstar hs h
      have hsnil : s = [] := List.length_eq_zero.mp (Nat.le_zero.mp hs)
      subst hsnil
      simpa [maskL] using h
    | succ n ih =>
      intro q s hq hqstar hs h
      cases s with
      | nil => simpa [maskL] using h
      | cons c cs =>
        have hs2 : cs.length + 1 ≤ n + 1 := by simpa using hs
        by_cases hcond : p ≠ [] ∧ List.IsPrefix p (c :: cs)
        · simp only [maskL] at h
          rw [dif_pos hcond] at h
          cases hp : p with
          | nil => exact absurd hp hcond.1
          | cons pc pcs =>
            cases q with
            | nil => exact absurd rfl hq
            | cons q0 qrest =>
              obtain ⟨t, ht⟩ := h
              rw [hp] at ht
              have hrep : List.replicate (pc :: pcs).length '*' =
                  '*' :: List.replicate pcs.length '*' := by
                simp [List.replicate_succ]
              rw [hrep] at ht
              have hq0 : q0 = '*' := by
                have hh := congrArg List.head? ht
                simpa using hh
              exact absurd hq0 (hqstar q0 (List.mem_cons_self _ _))
        · simp only [maskL] at h
          rw [dif_neg hcond] at h
          cases q with
          | nil => exact absurd rfl hq
          | cons q0 qrest =>
            obtain ⟨t, ht⟩ := h
            have h2 : q0 :: (qrest ++ t) = c :: maskL p cs := by simpa using ht
            have hq0 : q0 = c := (List.cons.inj h2).1
            by_cases hqr : qrest = []
            · subst hqr
              subst hq0
              exact ⟨cs, by simp⟩
            · have hpre2 : List.IsPrefix qrest (maskL p cs) :=
                ⟨t, (List.cons.inj h2).2⟩
              have hres : List.IsPrefix qrest cs :=
                ih qrest cs hqr
                  (fun c2 hc2 => hqstar c2 (List.mem_cons_of_mem _ hc2))
                  (Nat.le_of_succ_le_succ hs2) hpre2
              obtain ⟨t2, ht2⟩ := hres
              refine ⟨t2, ?_⟩
              rw [hq0]
              simpa using ht2
  intro q s hq hqstar h
  exact main s.length q s hq hqstar (le_refl _) h

theorem maskL_no_infix (p : List Char) (hne : p ≠ [])
    (hstar : ∀ c ∈ p, c ≠ '*') :
    ∀ s : List Char, ¬ List.IsInfix p (maskL p s) := by
  have main : ∀ n : Nat, ∀ s : List Char, s.length ≤ n →
      ¬ List.IsInfix p (maskL p s) := by
    intro n
    induction n with
    | zero =>
      intro s hs h
      have hsnil : s = [] := List.length_eq_zero.mp (Nat.le_zero.mp hs)
      subst hsnil
      simp only [maskL] at h
      obtain ⟨u, v, huv⟩ := h
      obtain ⟨-, h2⟩ := List.append_eq_nil.mp (List.append_eq_nil.mp huv).1
      exact hne h2
    | succ n ih =>
      intro s hs h
      cases s with
      | nil =>
        simp only [maskL] at h
        obtain ⟨u, v, huv⟩ := h
        obtain ⟨-, h2⟩ := List.append_eq_nil.mp (List.append_eq_nil.mp huv).1
        exact hne h2
      | cons c cs =>
        have hs2 : cs.length + 1 ≤ n + 1 := by simpa using hs
        by_cases hcond : p ≠ [] ∧ List.IsPrefix p (c :: cs)
        · simp only [maskL] at h
          rw [dif_pos hcond] at h
          have h2 := isInfix_skip_stars hne hstar h
          have hlen : (List.drop p.length (c :: cs)).length ≤ n := by
            simp only [List.length_drop, List.length_cons]
            have hp : 0 < p.length := List.length_pos.mpr hne
            omega
          exact ih _ hlen h2
        · simp only [maskL] at h
          rw [dif_neg hcond] at h
          rcases isInfix_cons_split h with hpre | hinf
          · have heq : maskL p (c :: cs) = c :: maskL p cs := by
              simp only [maskL]
              rw [dif_neg hcond]
            have hpre2 : List.IsPrefix p (c :: cs) :=
              maskL_isPrefix_preserve p p (c :: cs) hne hstar
                (by rw [heq]; exact hpre)
            exact hcond ⟨hne, hpre2⟩
          · exact ih cs (Nat.le_of_succ_le_succ hs2) hinf
  intro s
  exact main s.length s (le_refl _)

/-- C9 counterexample: registering the password consisting of a single
asterisk leaves the printed line containing that password as a
substring (replacing it by an asterisk of the same length changes
nothing). -/
theorem display_mask_star_cex :
    List.IsInfix ("*" : String).data (Display.show_line ["*"] "*" none).data := by
  have h1 : maskL ("*" : String).data ("*" : String).data = ['*'] := by
    have hd : ("*" : String).data = ['*'] := rfl
    rw [hd]
    simp [maskL]
  have hdata : (Display.show_line ["*"] "*" none).data =
      CLEAR.data ++ ['*'] ++ CLEAR.data := by
    simp [Display.show_line, pyReplaceStars, String.data_append, h1,
      List.append_assoc]
  rw [hdata]
  exact ⟨CLEAR.data, CLEAR.data, by simp⟩

/-- C9 amended: for a registered password that is non-empty, contains no
asterisk, and shares no character with the surrounding ANSI colour
codes, the printed line never contains the password as a substring
(every occurrence in the message is masked, and the mask can not
recreate one). -/
theorem display_mask_no_leak (p message : String) (color : Option String)
    (hne : p.data ≠ [])
    (hstar : ∀ c ∈ p.data, c ≠ '*')
    (hpre : ∀ c ∈ (color.getD CLEAR).data, c ∉ p.data)
    (hclear : ∀ c ∈ CLEAR.data, c ∉ p.data) :
    ¬ List.IsInfix p.data (Display.show_line [p] message color).data := by
  intro h
  have hdata : (Display.show_line [p] message color).data =
      (color.getD CLEAR).data ++ (maskL p.data message.data ++ CLEAR.data) := by
    simp [Display.show_line, pyReplaceStars, String.data_append,
      List.append_assoc]
  rw [hdata] at h
  have h1 := isInfix_skip_left _ hne hpre h
  have h2 := isInfix_skip_right _ hne hclear h1
  exact maskL_no_infix p.data hne hstar message.data h2

/-- C9 witness: a password sharing no character with the colour codes is
fully masked out of the printed line. -/
theorem display_mask_no_leak_witness :
    ¬ List.IsInfix ("secret" : String).data
      (Display.show_line ["secret"] "my secret" none).data :=
  display_mask_no_leak "secret" "my secret" none (by decide) (by decide)
    (by decide) (by decide)

end Containmint
